import Mathlib

set_option maxHeartbeats 1000000

/- Verification of the brainfuck-lamina front end: a shallow embedding of the
   lexer (src/lexer.rs) and of the compile-time evaluation performed by the
   Lamina IR builder (src/lamina_builder/ir_builder.rs), together with proofs
   of the documented properties of parsing and execution. -/

namespace BrainfuckLamina

/-- Source position with 1-based line and column (src/lexer.rs, `Position`). -/
structure Position where
  line : Nat
  column : Nat
  deriving DecidableEq, Repr

/-- Mirrors `Position::new`: line 1, column 1. -/
def Position.new : Position := ⟨1, 1⟩

/-- Mirrors `Position::advance`: a newline resets the column to 1 and bumps the
line; any other character bumps the column. -/
def Position.advance (p : Position) (c : Char) : Position :=
  if c = '\n' then ⟨p.line + 1, 1⟩ else ⟨p.line, p.column + 1⟩

/-- Basic Brainfuck commands, loop constructs excluded (src/lexer.rs, `Command`). -/
inductive Command where
  | Right
  | Left
  | Increment
  | Decrement
  | Output
  | Input
  deriving DecidableEq, Repr

/-- AST node: a command leaf or a loop with a nested body (src/lexer.rs, `AstNode`). -/
inductive AstNode where
  | Command (cmd : Command)
  | Loop (body : List AstNode)
  deriving Repr

/-- Lexer errors (src/lexer.rs, `LexerError`). -/
inductive LexerError where
  | UnmatchedClosingBracket (pos : Position)
  | UnexpectedEndOfInput (pos : Position)
  deriving DecidableEq, Repr

/-- Mirrors `Lexer::parse_command`: map a character to a command, or `none`
for comment characters. -/
def parse_command (c : Char) : Option Command :=
  match c with
  | '>' => some Command.Right
  | '<' => some Command.Left
  | '+' => some Command.Increment
  | '-' => some Command.Decrement
  | '.' => some Command.Output
  | ',' => some Command.Input
  | _ => none

/-- Combined embedding of `Lexer::parse` (`inLoop = false`) and
`Lexer::parse_loop` (`inLoop = true`). The lexer consumes one character per
step; the `fuel` argument is a termination bound, and whenever
`cs.length ≤ fuel` the `fuel = 0` fallback coincides with the end-of-input
case of the source, so the function computes exactly what the Rust code does.
On success it returns the accumulated nodes, the unconsumed characters (the
characters after the closing bracket when `inLoop = true`) and the position
reached. -/
def parseAux : Nat → Bool → List Char → Position → Except LexerError (List AstNode × List Char × Position)
  | 0, inLoop, cs, pos =>
      if inLoop then .error (.UnexpectedEndOfInput pos) else .ok ([], cs, pos)
  | fuel + 1, inLoop, cs, pos =>
      match cs with
      | [] => if inLoop then .error (.UnexpectedEndOfInput pos) else .ok ([], [], pos)
      | c :: rest =>
        match parse_command c with
        | some cmd =>
            match parseAux fuel inLoop rest (pos.advance c) with
            | .error e => .error e
            | .ok (ns, r, p) => .ok (AstNode.Command cmd :: ns, r, p)
        | none =>
          if c = '[' then
            match parseAux fuel true rest (pos.advance c) with
            | .error e => .error e
            | .ok (body, r1, p1) =>
              match parseAux fuel inLoop r1 p1 with
              | .error e => .error e
              | .ok (ns, r2, p2) => .ok (AstNode.Loop body :: ns, r2, p2)
          else if c = ']' then
            if inLoop then .ok ([], rest, pos.advance c)
            else .error (.UnmatchedClosingBracket pos)
          else
            parseAux fuel inLoop rest (pos.advance c)

/-- Mirrors `parse_brainfuck`: run the lexer over the whole source. -/
def parse_brainfuck (source : String) : Except LexerError (List AstNode) :=
  match parseAux source.data.length false source.data Position.new with
  | .error e => .error e
  | .ok (ns, _, _) => .ok ns

/-- Reference scanner: starting inside `d + 1` open loops, find the suffix just
after the bracket that closes the innermost loop, together with the position
just after it. Purely character-counting, used to state parser properties. -/
def scanClose : List Char → Position → Nat → Option (List Char × Position)
  | [], _, _ => none
  | c :: rest, pos, d =>
      if c = ']' then
        if d = 0 then some (rest, pos.advance c)
        else scanClose rest (pos.advance c) (d - 1)
      else if c = '[' then scanClose rest (pos.advance c) (d + 1)
      else scanClose rest (pos.advance c) d

/-- Reference scanner: position of the first closing bracket that appears at
nesting depth zero (relative to `d` currently open loops), if any. -/
def findUnmatched : List Char → Position → Nat → Option Position
  | [], _, _ => none
  | c :: rest, pos, d =>
      if c = ']' then
        if d = 0 then some pos
        else findUnmatched rest (pos.advance c) (d - 1)
      else if c = '[' then findUnmatched rest (pos.advance c) (d + 1)
      else findUnmatched rest (pos.advance c) d

/-- Number of opening brackets in a character list. -/
def countOpen : List Char → Nat
  | [] => 0
  | c :: rest => (if c = '[' then 1 else 0) + countOpen rest

/-- Number of closing brackets in a character list. -/
def countClose : List Char → Nat
  | [] => 0
  | c :: rest => (if c = ']' then 1 else 0) + countClose rest

/-- Bracket scan: threading a current depth and a running maximum depth over a
character list, returning the final depth and the maximum reached. -/
def scanBrackets : List Char → Int → Int → Int × Int
  | [], d, m => (d, m)
  | c :: rest, d, m =>
      if c = '[' then scanBrackets rest (d + 1) (max m (d + 1))
      else if c = ']' then scanBrackets rest (d - 1) m
      else scanBrackets rest d m

/-- A character the lexer treats as meaningful: one of the six commands or a
bracket. Everything else is commentary. -/
def isCommandChar (c : Char) : Bool :=
  (parse_command c).isSome || c = '[' || c = ']'

/-- One when inside a loop body, zero at top level: the number of extra
closing brackets the corresponding parse consumes. -/
def loopDelta : Bool → Nat
  | false => 0
  | true => 1

mutual
/-- Number of loop nodes inside one node, the node itself included when it is
a loop (matches the loop component of `count_operations`). -/
def nodeLoops : AstNode → Nat
  | AstNode.Command _ => 0
  | AstNode.Loop body => 1 + countLoops body

/-- Number of loop nodes in a node list, counted recursively
(src/lamina_builder/utils.rs, the loop component of `count_operations`). -/
def countLoops : List AstNode → Nat
  | [] => 0
  | n :: rest => nodeLoops n + countLoops rest
end

mutual
/-- Nesting depth of one AST node: commands have depth 0, a loop is one more
than the depth of its body. -/
def nodeDepth : AstNode → Nat
  | AstNode.Command _ => 0
  | AstNode.Loop body => astDepth body + 1

/-- Maximum nesting depth over a node list. -/
def astDepth : List AstNode → Nat
  | [] => 0
  | n :: rest => max (nodeDepth n) (astDepth rest)
end

/-- Configuration for Brainfuck compilation
(src/lamina_builder/config.rs, `BrainfuckConfig`). -/
structure BrainfuckConfig where
  tape_size : Nat
  cell_size : Nat
  deriving DecidableEq, Repr

/-- Mirrors `BrainfuckConfig::default`: tape of 30000 cells, 1 byte each. -/
def BrainfuckConfig.default : BrainfuckConfig := ⟨30000, 1⟩

/-- Mirrors `BrainfuckConfig::new`. -/
def BrainfuckConfig.new (tape_size cell_size : Nat) : BrainfuckConfig :=
  ⟨tape_size, cell_size⟩

/-- Mirrors `BrainfuckConfig::small`: 1000 cells. -/
def BrainfuckConfig.small : BrainfuckConfig := ⟨1000, 1⟩

/-- Mirrors `BrainfuckConfig::large`: 100000 cells. -/
def BrainfuckConfig.large : BrainfuckConfig := ⟨100000, 1⟩

/-- Compile-time simulation state threaded through
`BrainfuckIRBuilder::build_ir` (src/lamina_builder/ir_builder.rs): the
`memory` vector of byte cells (values kept below 256), the `position` index,
the sequence of byte values handed to `write_byte` (the output of the
generated program), and the `output_count` counter. -/
structure SimState where
  memory : List Nat
  position : Nat
  output : List Nat
  output_count : Nat
  deriving DecidableEq, Repr

/-- The cell read the builder performs before mutating or emitting:
`if *position < memory.len() { memory[*position] } else { 0 }`. -/
def current_value (s : SimState) : Nat :=
  if s.position < s.memory.length then s.memory.getD s.position 0 else 0

/-- Mirrors `BrainfuckIRBuilder::process_command_with_lamina`
(src/lamina_builder/ir_builder.rs lines 93-192): the compile-time effect of
one command on the simulation state. `Right` saturates at
`memory.len().saturating_sub(1)`, `Left` saturates at 0 (both via the Rust
`min`/`saturating_sub`, with Nat subtraction playing the saturating role),
`Increment`/`Decrement` use `u8` wrapping arithmetic (mod 256) under a bounds
guard, `Output` hands the simulated cell value to `write_byte`, and `Input`
only emits a placeholder instruction and leaves the state untouched. The Rust
function returns `Result<(), String>` and always ends in `Ok(())`. -/
def process_command_with_lamina (s : SimState) (cmd : Command) : Except String SimState :=
  .ok (match cmd with
    | Command.Right => { s with position := min (s.position + 1) (s.memory.length - 1) }
    | Command.Left => { s with position := s.position - 1 }
    | Command.Increment =>
        let new_value := (current_value s + 1) % 256
        { s with memory :=
            if s.position < s.memory.length then s.memory.set s.position new_value
            else s.memory }
    | Command.Decrement =>
        let new_value := (current_value s + 255) % 256
        { s with memory :=
            if s.position < s.memory.length then s.memory.set s.position new_value
            else s.memory }
    | Command.Output =>
        { s with output := s.output ++ [current_value s],
                 output_count := s.output_count + 1 }
    | Command.Input => s)

mutual
/-- Dispatch of one AST node, as done by the match inside
`process_ast_with_lamina`. The loop case inlines
`BrainfuckIRBuilder::process_loop_with_lamina`
(src/lamina_builder/ir_builder.rs lines 195-223): the body is executed a
fixed five times (the source's `for _ in 0..5`, unrolled here) with no guard
on the current cell, then a loop marker instruction is emitted. -/
def process_node (s : SimState) : AstNode → Except String SimState
  | AstNode.Command cmd => process_command_with_lamina s cmd
  | AstNode.Loop body =>
      match process_seq s body with
      | .error e => .error e
      | .ok s1 =>
        match process_seq s1 body with
        | .error e => .error e
        | .ok s2 =>
          match process_seq s2 body with
          | .error e => .error e
          | .ok s3 =>
            match process_seq s3 body with
            | .error e => .error e
            | .ok s4 => process_seq s4 body

/-- Sequential processing of a node list with `?`-style error propagation,
the iteration inside `process_ast_with_lamina` and
`process_loop_with_lamina`. -/
def process_seq (s : SimState) : List AstNode → Except String SimState
  | [] => .ok s
  | n :: rest =>
      match process_node s n with
      | .error e => .error e
      | .ok s' => process_seq s' rest
end

/-- Mirrors `BrainfuckIRBuilder::process_ast_with_lamina`: process every node
in order (the operation counting it also performs has no effect on the
simulation state). -/
def process_ast_with_lamina (s : SimState) (ast : List AstNode) : Except String SimState :=
  process_seq s ast

/-- Mirrors `BrainfuckIRBuilder::build_ir`
(src/lamina_builder/ir_builder.rs lines 46-67): initialize the compile-time
memory to `tape_size` zero cells, position 0, no output, and process the AST.
The result is the final simulation state, which determines every value the
emitted module feeds to `write_byte`. -/
def build_ir (config : BrainfuckConfig) (ast : List AstNode) : Except String SimState :=
  match process_ast_with_lamina ⟨List.replicate config.tape_size 0, 0, [], 0⟩ ast with
  | .error e => .error e
  | .ok s => .ok s

/-- Modelled from the spec: the canonical evaluator state of section 4.2
(tape, pointer, output, input), which the repository documents as a contract
but does not implement as a standalone interpreter. -/
structure EvalState where
  tape : List Nat
  pointer : Nat
  output : List Nat
  input : List Nat
  deriving DecidableEq, Repr

/-- Modelled from the spec: per-command canonical semantics of section 4.2.
Movement saturates at the tape bounds, cell arithmetic is mod 256, `Output`
appends the current cell, `Input` consumes one byte and on exhausted input
leaves the cell unchanged (one of the two acceptable policies named there). -/
def canonicalCmd (st : EvalState) : Command → EvalState
  | Command.Right => { st with pointer := min (st.pointer + 1) (st.tape.length - 1) }
  | Command.Left => { st with pointer := st.pointer - 1 }
  | Command.Increment =>
      { st with tape := st.tape.set st.pointer ((st.tape.getD st.pointer 0 + 1) % 256) }
  | Command.Decrement =>
      { st with tape := st.tape.set st.pointer ((st.tape.getD st.pointer 0 + 255) % 256) }
  | Command.Output => { st with output := st.output ++ [st.tape.getD st.pointer 0] }
  | Command.Input =>
      match st.input with
      | [] => st
      | b :: rest => { st with tape := st.tape.set st.pointer (b % 256), input := rest }

/-- Modelled from the spec: canonical evaluation of a node sequence
(section 4.2). A `Loop` node re-checks that the current cell is nonzero
before every execution of its body, including the first: a zero guard on
entry executes the body zero times, and after a body execution the guard is
re-evaluated on the state that execution left behind. The fuel bounds the
total number of evaluation steps; `none` reports fuel exhaustion, never
reached once the fuel is large enough for the run. -/
def canonicalRun : Nat → EvalState → List AstNode → Option EvalState
  | 0, _, _ => none
  | _ + 1, st, [] => some st
  | fuel + 1, st, AstNode.Command cmd :: rest =>
      canonicalRun fuel (canonicalCmd st cmd) rest
  | fuel + 1, st, AstNode.Loop body :: rest =>
      if st.tape.getD st.pointer 0 = 0 then canonicalRun fuel st rest
      else
        match canonicalRun fuel st body with
        | none => none
        | some st' => canonicalRun fuel st' (AstNode.Loop body :: rest)

/-- Position reached after consuming a whole character list, starting at `pos`. -/
def endPosition (pos : Position) (cs : List Char) : Position :=
  List.foldl Position.advance pos cs

/-- The AST of the sample program `"++++++++[>++++++++<-]>."` from the test
suite, spelled out node by node. -/
def program64 : List AstNode :=
  [.Command .Increment, .Command .Increment, .Command .Increment, .Command .Increment,
   .Command .Increment, .Command .Increment, .Command .Increment, .Command .Increment,
   .Loop [.Command .Right, .Command .Increment, .Command .Increment, .Command .Increment,
          .Command .Increment, .Command .Increment, .Command .Increment, .Command .Increment,
          .Command .Increment, .Command .Left, .Command .Decrement],
   .Command .Right, .Command .Output]

section ParserLemmas

/-- Unfolding: the lexer at end of input succeeds at top level and fails
inside a loop body. -/
theorem parseAux_nil (fuel : Nat) (inLoop : Bool) (pos : Position) :
    parseAux fuel inLoop [] pos =
      if inLoop then .error (.UnexpectedEndOfInput pos) else .ok ([], [], pos) := by
  cases fuel <;> rfl

/-- Unfolding: a command character is consumed and prepended. -/
theorem parseAux_cmd (fuel : Nat) (inLoop : Bool) (c : Char) (cmd : Command)
    (rest : List Char) (pos : Position) (h : parse_command c = some cmd) :
    parseAux (fuel + 1) inLoop (c :: rest) pos =
      match parseAux fuel inLoop rest (pos.advance c) with
      | .error e => .error e
      | .ok (ns, r, p) => .ok (AstNode.Command cmd :: ns, r, p) := by
  simp only [parseAux, h]

/-- Unfolding: an opening bracket parses a loop body and then continues. -/
theorem parseAux_open (fuel : Nat) (inLoop : Bool) (rest : List Char) (pos : Position) :
    parseAux (fuel + 1) inLoop ('[' :: rest) pos =
      match parseAux fuel true rest (pos.advance '[') with
      | .error e => .error e
      | .ok (body, r1, p1) =>
        match parseAux fuel inLoop r1 p1 with
        | .error e => .error e
        | .ok (ns, r2, p2) => .ok (AstNode.Loop body :: ns, r2, p2) := by
  rfl

/-- Unfolding: a closing bracket inside a loop body ends it successfully. -/
theorem parseAux_close_loop (fuel : Nat) (rest : List Char) (pos : Position) :
    parseAux (fuel + 1) true (']' :: rest) pos = .ok ([], rest, pos.advance ']') := by
  rfl

/-- Unfolding: a closing bracket at top level is the unmatched-bracket error,
reported at the position of the bracket itself. -/
theorem parseAux_close_top (fuel : Nat) (rest : List Char) (pos : Position) :
    parseAux (fuel + 1) false (']' :: rest) pos = .error (.UnmatchedClosingBracket pos) := by
  rfl

/-- Unfolding: a comment character is consumed with no other effect. -/
theorem parseAux_comment (fuel : Nat) (inLoop : Bool) (c : Char) (rest : List Char)
    (pos : Position) (h1 : parse_command c = none) (h2 : c ≠ '[') (h3 : c ≠ ']') :
    parseAux (fuel + 1) inLoop (c :: rest) pos = parseAux fuel inLoop rest (pos.advance c) := by
  simp only [parseAux, h1, h2, h3, if_false, if_neg h2, if_neg h3]

/-- Inversion: a successful run over an empty input returns no nodes at top
level (and cannot happen in a loop body). -/
theorem parseAux_nil_ok (fuel : Nat) (inLoop : Bool) (pos : Position)
    (ns : List AstNode) (r : List Char) (p : Position)
    (h : parseAux fuel inLoop [] pos = .ok (ns, r, p)) :
    inLoop = false ∧ ns = [] ∧ r = [] ∧ p = pos := by
  rw [parseAux_nil] at h
  cases inLoop with
  | false => cases h; exact ⟨rfl, rfl, rfl, rfl⟩
  | true => simp at h

/-- Inversion of a successful run that starts with a command character. -/
theorem parseAux_cmd_ok (fuel : Nat) (inLoop : Bool) (c : Char) (cmd : Command)
    (rest : List Char) (pos : Position) (ns : List AstNode) (r : List Char) (p : Position)
    (hc : parse_command c = some cmd)
    (h : parseAux (fuel + 1) inLoop (c :: rest) pos = .ok (ns, r, p)) :
    ∃ ns0, parseAux fuel inLoop rest (pos.advance c) = .ok (ns0, r, p) ∧
      ns = AstNode.Command cmd :: ns0 := by
  rw [parseAux_cmd fuel inLoop c cmd rest pos hc] at h
  split at h
  · cases h
  · rename_i ns0 r0 p0 heq
    cases h
    exact ⟨ns0, heq, rfl⟩

/-- Inversion of a successful run that starts with an opening bracket: the
loop body parse succeeds and the continuation succeeds on its leftovers. -/
theorem parseAux_open_ok (fuel : Nat) (inLoop : Bool) (rest : List Char) (pos : Position)
    (ns : List AstNode) (r : List Char) (p : Position)
    (h : parseAux (fuel + 1) inLoop ('[' :: rest) pos = .ok (ns, r, p)) :
    ∃ body r1 p1 ns2, parseAux fuel true rest (pos.advance '[') = .ok (body, r1, p1) ∧
      parseAux fuel inLoop r1 p1 = .ok (ns2, r, p) ∧ ns = AstNode.Loop body :: ns2 := by
  rw [parseAux_open] at h
  split at h
  · cases h
  · rename_i body r1 p1 heq1
    split at h
    · cases h
    · rename_i ns2 r2 p2 heq2
      cases h
      exact ⟨body, r1, p1, ns2, heq1, heq2, rfl⟩

/-- The unconsumed suffix returned by a successful lexer run is no longer than
the input. -/
theorem parseAux_ok_length : ∀ (fuel : Nat) (inLoop : Bool) (cs : List Char) (pos : Position)
    (ns : List AstNode) (r : List Char) (p : Position),
    parseAux fuel inLoop cs pos = .ok (ns, r, p) → r.length ≤ cs.length := by
  intro fuel
  induction fuel with
  | zero =>
    intro inLoop cs pos ns r p h
    cases inLoop with
    | false =>
      have h' : Except.ok (ε := LexerError) (([] : List AstNode), cs, pos) = .ok (ns, r, p) := h
      cases h'
      exact Nat.le_refl _
    | true => simp [parseAux] at h
  | succ fuel ih =>
    intro inLoop cs pos ns r p h
    cases cs with
    | nil =>
      obtain ⟨-, -, hr, -⟩ := parseAux_nil_ok _ _ _ _ _ _ h
      simp [hr]
    | cons c rest =>
      cases hc : parse_command c with
      | some cmd =>
        obtain ⟨ns0, hrec, -⟩ := parseAux_cmd_ok fuel inLoop c cmd rest pos ns r p hc h
        exact Nat.le_succ_of_le (ih inLoop rest (pos.advance c) ns0 r p hrec)
      | none =>
        by_cases hob : c = '['
        · subst hob
          obtain ⟨body, r1, p1, ns2, h1, h2, -⟩ :=
            parseAux_open_ok fuel inLoop rest pos ns r p h
          have l1 := ih true rest (pos.advance '[') body r1 p1 h1
          have l2 := ih inLoop r1 p1 ns2 r p h2
          exact Nat.le_succ_of_le (Nat.le_trans l2 l1)
        · by_cases hcb : c = ']'
          · subst hcb
            cases inLoop with
            | true =>
              rw [parseAux_close_loop] at h
              cases h
              exact Nat.le_succ _
            | false =>
              rw [parseAux_close_top] at h
              cases h
          · rw [parseAux_comment fuel inLoop c rest pos hc hob hcb] at h
            exact Nat.le_succ_of_le (ih inLoop rest (pos.advance c) ns r p h)

end ParserLemmas

section ScannerLemmas

/-- Unfolding lemma for `scanClose` on a nonempty list. -/
theorem scanClose_cons (c : Char) (rest : List Char) (pos : Position) (d : Nat) :
    scanClose (c :: rest) pos d =
      if c = ']' then
        if d = 0 then some (rest, pos.advance c)
        else scanClose rest (pos.advance c) (d - 1)
      else if c = '[' then scanClose rest (pos.advance c) (d + 1)
      else scanClose rest (pos.advance c) d := rfl

/-- Unfolding lemma for `findUnmatched` on a nonempty list. -/
theorem findUnmatched_cons (c : Char) (rest : List Char) (pos : Position) (d : Nat) :
    findUnmatched (c :: rest) pos d =
      if c = ']' then
        if d = 0 then some pos
        else findUnmatched rest (pos.advance c) (d - 1)
      else if c = '[' then findUnmatched rest (pos.advance c) (d + 1)
      else findUnmatched rest (pos.advance c) d := rfl

/-- A successful `scanClose` consumes at least the closing bracket, so the
returned suffix is strictly shorter. -/
theorem scanClose_some_length : ∀ (cs : List Char) (pos : Position) (d : Nat)
    (r : List Char) (p : Position),
    scanClose cs pos d = some (r, p) → r.length < cs.length := by
  intro cs
  induction cs with
  | nil => intro pos d r p h; cases h
  | cons c rest ih =>
    intro pos d r p h
    rw [scanClose_cons] at h
    by_cases hc : c = ']'
    · rw [if_pos hc] at h
      by_cases hd : d = 0
      · rw [if_pos hd] at h
        cases h
        simp
      · rw [if_neg hd] at h
        exact Nat.lt_succ_of_lt (ih _ _ _ _ h)
    · rw [if_neg hc] at h
      by_cases ho : c = '['
      · rw [if_pos ho] at h
        exact Nat.lt_succ_of_lt (ih _ _ _ _ h)
      · rw [if_neg ho] at h
        exact Nat.lt_succ_of_lt (ih _ _ _ _ h)

/-- Open-bracket count of a cons cell, as an unfolding equation. -/
theorem countOpen_cons (c : Char) (l : List Char) :
    countOpen (c :: l) = (if c = '[' then 1 else 0) + countOpen l := rfl

/-- Close-bracket count of a cons cell, as an unfolding equation. -/
theorem countClose_cons (c : Char) (l : List Char) :
    countClose (c :: l) = (if c = ']' then 1 else 0) + countClose l := rfl

/-- An opening bracket bumps the open count. -/
theorem countOpen_cons_open (l : List Char) : countOpen ('[' :: l) = countOpen l + 1 := by
  rw [countOpen_cons, if_pos rfl, Nat.add_comm]

/-- Only an opening bracket bumps the open count. -/
theorem countOpen_cons_of_ne (c : Char) (l : List Char) (h : c ≠ '[') :
    countOpen (c :: l) = countOpen l := by
  rw [countOpen_cons, if_neg h, Nat.zero_add]

/-- A closing bracket bumps the close count. -/
theorem countClose_cons_close (l : List Char) : countClose (']' :: l) = countClose l + 1 := by
  rw [countClose_cons, if_pos rfl, Nat.add_comm]

/-- Only a closing bracket bumps the close count. -/
theorem countClose_cons_of_ne (c : Char) (l : List Char) (h : c ≠ ']') :
    countClose (c :: l) = countClose l := by
  rw [countClose_cons, if_neg h, Nat.zero_add]

/-- Bracket counts over an append, opening brackets. -/
theorem countOpen_append (a b : List Char) :
    countOpen (a ++ b) = countOpen a + countOpen b := by
  induction a with
  | nil => simp [countOpen]
  | cons c rest ih =>
    rw [List.cons_append, countOpen_cons, countOpen_cons, ih]
    omega

/-- Bracket counts over an append, closing brackets. -/
theorem countClose_append (a b : List Char) :
    countClose (a ++ b) = countClose a + countClose b := by
  induction a with
  | nil => simp [countClose]
  | cons c rest ih =>
    rw [List.cons_append, countClose_cons, countClose_cons, ih]
    omega

/-- Decomposition of a successful `scanClose`: the input splits into the
consumed prefix (whose bracket balance closes exactly `d + 1` loops) and the
returned suffix, and the returned position is reached by advancing over the
prefix. -/
theorem scanClose_decomp : ∀ (cs : List Char) (pos : Position) (d : Nat)
    (r : List Char) (p : Position), scanClose cs pos d = some (r, p) →
    ∃ pre, cs = pre ++ r ∧ countClose pre = countOpen pre + d + 1 ∧
      p = endPosition pos pre := by
  intro cs
  induction cs with
  | nil => intro pos d r p h; cases h
  | cons c rest ih =>
    intro pos d r p h
    rw [scanClose_cons] at h
    by_cases hc : c = ']'
    · subst hc
      rw [if_pos rfl] at h
      by_cases hd : d = 0
      · subst hd
        rw [if_pos rfl] at h
        cases h
        refine ⟨[']'], rfl, by decide, by simp [endPosition]⟩
      · rw [if_neg hd] at h
        obtain ⟨pre, hsplit, hcount, hpos⟩ := ih _ _ _ _ h
        refine ⟨']' :: pre, by simp [hsplit], ?_, by simp [endPosition, hpos]⟩
        rw [countClose_cons_close, countOpen_cons_of_ne _ _ (by decide)]
        omega
    · rw [if_neg hc] at h
      by_cases ho : c = '['
      · subst ho
        rw [if_pos rfl] at h
        obtain ⟨pre, hsplit, hcount, hpos⟩ := ih _ _ _ _ h
        refine ⟨'[' :: pre, by simp [hsplit], ?_, by simp [endPosition, hpos]⟩
        rw [countClose_cons_of_ne _ _ (by decide), countOpen_cons_open]
        omega
      · rw [if_neg ho] at h
        obtain ⟨pre, hsplit, hcount, hpos⟩ := ih _ _ _ _ h
        refine ⟨c :: pre, by simp [hsplit], ?_, by simp [endPosition, hpos]⟩
        rw [countClose_cons_of_ne _ _ hc, countOpen_cons_of_ne _ _ ho]
        omega

/-- Depth shift for `scanClose`: closing out of `d + 1` loops is closing the
innermost one and then closing out of the remaining `d`. -/
theorem scanClose_succ_aux : ∀ (n : Nat) (cs : List Char), cs.length ≤ n →
    ∀ (pos : Position) (d : Nat),
    scanClose cs pos (d + 1) = (scanClose cs pos 0).bind (fun rp => scanClose rp.1 rp.2 d) := by
  intro n
  induction n with
  | zero =>
    intro cs hlen pos d
    have hcs : cs = [] := List.length_eq_zero.mp (Nat.le_zero.mp hlen)
    subst hcs
    rfl
  | succ n ih =>
    intro cs hlen pos d
    cases cs with
    | nil => rfl
    | cons c rest =>
      have hlen' : rest.length ≤ n := Nat.le_of_succ_le_succ hlen
      by_cases hc : c = ']'
      · subst hc
        rw [scanClose_cons, scanClose_cons]
        rw [if_pos rfl, if_pos rfl, if_neg (Nat.succ_ne_zero d), if_pos rfl]
        simp
      · by_cases ho : c = '['
        · subst ho
          have hne : ¬('[' : Char) = ']' := by decide
          rw [scanClose_cons, scanClose_cons]
          rw [if_neg hne, if_pos rfl, if_neg hne, if_pos rfl]
          rw [ih rest hlen' (Position.advance pos '[') (d + 1)]
          rw [ih rest hlen' (Position.advance pos '[') 0]
          rw [Option.bind_assoc]
          cases hsc : scanClose rest (Position.advance pos '[') 0 with
          | none => rfl
          | some rp =>
            obtain ⟨r1, q1⟩ := rp
            simp only [Option.some_bind]
            exact ih r1 (Nat.le_of_lt (Nat.lt_of_lt_of_le (scanClose_some_length _ _ _ _ _ hsc) hlen')) q1 d
        · rw [scanClose_cons, scanClose_cons]
          rw [if_neg hc, if_neg ho, if_neg hc, if_neg ho]
          exact ih rest hlen' (Position.advance pos c) d

/-- Depth shift for `scanClose`, stated without the induction bound. -/
theorem scanClose_succ (cs : List Char) (pos : Position) (d : Nat) :
    scanClose cs pos (d + 1) = (scanClose cs pos 0).bind (fun rp => scanClose rp.1 rp.2 d) :=
  scanClose_succ_aux cs.length cs (Nat.le_refl _) pos d

/-- Depth shift for `findUnmatched`: a violation seen from inside `d + 1` open
loops lies beyond the bracket closing the innermost loop. -/
theorem findUnmatched_succ_aux : ∀ (n : Nat) (cs : List Char), cs.length ≤ n →
    ∀ (pos : Position) (d : Nat),
    findUnmatched cs pos (d + 1) =
      (scanClose cs pos 0).bind (fun rp => findUnmatched rp.1 rp.2 d) := by
  intro n
  induction n with
  | zero =>
    intro cs hlen pos d
    have hcs : cs = [] := List.length_eq_zero.mp (Nat.le_zero.mp hlen)
    subst hcs
    rfl
  | succ n ih =>
    intro cs hlen pos d
    cases cs with
    | nil => rfl
    | cons c rest =>
      have hlen' : rest.length ≤ n := Nat.le_of_succ_le_succ hlen
      by_cases hc : c = ']'
      · subst hc
        rw [findUnmatched_cons, scanClose_cons]
        rw [if_pos rfl, if_pos rfl, if_neg (Nat.succ_ne_zero d), if_pos rfl]
        simp
      · by_cases ho : c = '['
        · subst ho
          have hne : ¬('[' : Char) = ']' := by decide
          rw [findUnmatched_cons, scanClose_cons]
          rw [if_neg hne, if_pos rfl, if_neg hne, if_pos rfl]
          rw [ih rest hlen' (Position.advance pos '[') (d + 1)]
          rw [scanClose_succ rest (Position.advance pos '[') 0]
          rw [Option.bind_assoc]
          cases hsc : scanClose rest (Position.advance pos '[') 0 with
          | none => rfl
          | some rp =>
            obtain ⟨r1, q1⟩ := rp
            simp only [Option.some_bind]
            exact ih r1 (Nat.le_of_lt (Nat.lt_of_lt_of_le (scanClose_some_length _ _ _ _ _ hsc) hlen')) q1 d
        · rw [findUnmatched_cons, scanClose_cons]
          rw [if_neg hc, if_neg ho, if_neg hc, if_neg ho]
          exact ih rest hlen' (Position.advance pos c) d

/-- Depth shift for `findUnmatched`, stated without the induction bound. -/
theorem findUnmatched_succ (cs : List Char) (pos : Position) (d : Nat) :
    findUnmatched cs pos (d + 1) =
      (scanClose cs pos 0).bind (fun rp => findUnmatched rp.1 rp.2 d) :=
  findUnmatched_succ_aux cs.length cs (Nat.le_refl _) pos d

/-- Advancing over an empty list is the identity. -/
theorem endPosition_nil (pos : Position) : endPosition pos [] = pos := rfl

/-- Advancing over a cons advances by the head first. -/
theorem endPosition_cons (pos : Position) (c : Char) (rest : List Char) :
    endPosition pos (c :: rest) = endPosition (pos.advance c) rest := rfl

/-- Advancing over an append goes through the first part, then the second. -/
theorem endPosition_append (pos : Position) (a b : List Char) :
    endPosition pos (a ++ b) = endPosition (endPosition pos a) b := by
  simp [endPosition, List.foldl_append]

/-- A command character is not a bracket. -/
theorem parse_command_ne_brackets (c : Char) (cmd : Command)
    (h : parse_command c = some cmd) : c ≠ '[' ∧ c ≠ ']' := by
  constructor
  · intro he; subst he; simp [parse_command] at h
  · intro he; subst he; simp [parse_command] at h

end ScannerLemmas

section BridgeLemmas

/-- Forward composition for the opening-bracket branch, successful
continuation: once the loop-body parse and the continuation succeed, the
whole run succeeds with the loop node prepended. -/
theorem parseAux_open_build_ok (fuel : Nat) (inLoop : Bool) (rest : List Char) (pos : Position)
    (body : List AstNode) (r1 : List Char) (p1 : Position)
    (ns : List AstNode) (r2 : List Char) (p2 : Position)
    (h1 : parseAux fuel true rest (pos.advance '[') = .ok (body, r1, p1))
    (h2 : parseAux fuel inLoop r1 p1 = .ok (ns, r2, p2)) :
    parseAux (fuel + 1) inLoop ('[' :: rest) pos = .ok (AstNode.Loop body :: ns, r2, p2) := by
  rw [parseAux_open, h1]
  show (match parseAux fuel inLoop r1 p1 with
    | Except.error e => Except.error e
    | Except.ok (ns, r2, p2) => Except.ok (AstNode.Loop body :: ns, r2, p2)) = _
  rw [h2]

/-- Forward composition for the opening-bracket branch, failing continuation:
the error propagates. -/
theorem parseAux_open_build_error (fuel : Nat) (inLoop : Bool) (rest : List Char)
    (pos : Position) (body : List AstNode) (r1 : List Char) (p1 : Position) (e : LexerError)
    (h1 : parseAux fuel true rest (pos.advance '[') = .ok (body, r1, p1))
    (h2 : parseAux fuel inLoop r1 p1 = .error e) :
    parseAux (fuel + 1) inLoop ('[' :: rest) pos = .error e := by
  rw [parseAux_open, h1]
  show (match parseAux fuel inLoop r1 p1 with
    | Except.error e => Except.error e
    | Except.ok (ns, r2, p2) => Except.ok (AstNode.Loop body :: ns, r2, p2)) = _
  rw [h2]

/-- Bridge, success side: when the bracket scanner finds the bracket closing
the current loop body, the lexer in loop-body mode succeeds and stops exactly
there. -/
theorem parseAux_true_ok_of_scanClose : ∀ (n : Nat) (cs : List Char), cs.length ≤ n →
    ∀ (fuel : Nat) (pos : Position) (r : List Char) (p : Position), cs.length ≤ fuel →
    scanClose cs pos 0 = some (r, p) →
    ∃ ns, parseAux fuel true cs pos = .ok (ns, r, p) := by
  intro n
  induction n with
  | zero =>
    intro cs hlen fuel pos r p hfuel h
    have hcs : cs = [] := List.length_eq_zero.mp (Nat.le_zero.mp hlen)
    subst hcs
    cases h
  | succ n ih =>
    intro cs hlen fuel pos r p hfuel h
    cases cs with
    | nil => cases h
    | cons c rest =>
      have hlen' : rest.length ≤ n := Nat.le_of_succ_le_succ hlen
      cases fuel with
      | zero => simp at hfuel
      | succ f =>
        have hfuel' : rest.length ≤ f := Nat.le_of_succ_le_succ hfuel
        cases hc : parse_command c with
        | some cmd =>
          obtain ⟨hob, hcb⟩ := parse_command_ne_brackets c cmd hc
          rw [scanClose_cons, if_neg hcb, if_neg hob] at h
          obtain ⟨ns0, hrec⟩ := ih rest hlen' f (pos.advance c) r p hfuel' h
          refine ⟨AstNode.Command cmd :: ns0, ?_⟩
          rw [parseAux_cmd f true c cmd rest pos hc, hrec]
        | none =>
          by_cases hcb : c = ']'
          · subst hcb
            rw [scanClose_cons, if_pos rfl, if_pos rfl] at h
            simp only [Option.some.injEq, Prod.mk.injEq] at h
            obtain ⟨h1, h2⟩ := h
            subst h1
            subst h2
            exact ⟨[], parseAux_close_loop f rest pos⟩
          · by_cases hob : c = '['
            · subst hob
              have hne : ¬('[' : Char) = ']' := by decide
              rw [scanClose_cons, if_neg hne, if_pos rfl] at h
              rw [scanClose_succ] at h
              cases hsc : scanClose rest (Position.advance pos '[') 0 with
              | none => rw [hsc] at h; cases h
              | some rp =>
                obtain ⟨r1, q1⟩ := rp
                rw [hsc] at h
                simp only [Option.some_bind] at h
                obtain ⟨body, hrec1⟩ :=
                  ih rest hlen' f (Position.advance pos '[') r1 q1 hfuel' hsc
                have hr1len : r1.length < rest.length := scanClose_some_length _ _ _ _ _ hsc
                obtain ⟨ns2, hrec2⟩ :=
                  ih r1 (Nat.le_of_lt (Nat.lt_of_lt_of_le hr1len hlen')) f q1 r p
                    (Nat.le_of_lt (Nat.lt_of_lt_of_le hr1len hfuel')) h
                exact ⟨AstNode.Loop body :: ns2,
                  parseAux_open_build_ok f true rest pos body r1 q1 ns2 r p hrec1 hrec2⟩
            · rw [scanClose_cons, if_neg hcb, if_neg hob] at h
              obtain ⟨ns0, hrec⟩ := ih rest hlen' f (pos.advance c) r p hfuel' h
              refine ⟨ns0, ?_⟩
              rw [parseAux_comment f true c rest pos hc hob hcb, hrec]

/-- Bridge, failure side: when the current loop body is never closed, the
lexer in loop-body mode consumes everything and reports an unexpected end of
input at the final position. -/
theorem parseAux_true_error_of_scanClose_none : ∀ (n : Nat) (cs : List Char), cs.length ≤ n →
    ∀ (fuel : Nat) (pos : Position), cs.length ≤ fuel →
    scanClose cs pos 0 = none →
    parseAux fuel true cs pos = .error (.UnexpectedEndOfInput (endPosition pos cs)) := by
  intro n
  induction n with
  | zero =>
    intro cs hlen fuel pos hfuel h
    have hcs : cs = [] := List.length_eq_zero.mp (Nat.le_zero.mp hlen)
    subst hcs
    rw [parseAux_nil, endPosition_nil]
    simp
  | succ n ih =>
    intro cs hlen fuel pos hfuel h
    cases cs with
    | nil =>
      rw [parseAux_nil, endPosition_nil]
      simp
    | cons c rest =>
      have hlen' : rest.length ≤ n := Nat.le_of_succ_le_succ hlen
      cases fuel with
      | zero => simp at hfuel
      | succ f =>
        have hfuel' : rest.length ≤ f := Nat.le_of_succ_le_succ hfuel
        rw [endPosition_cons]
        cases hc : parse_command c with
        | some cmd =>
          obtain ⟨hob, hcb⟩ := parse_command_ne_brackets c cmd hc
          rw [scanClose_cons, if_neg hcb, if_neg hob] at h
          rw [parseAux_cmd f true c cmd rest pos hc,
            ih rest hlen' f (pos.advance c) hfuel' h]
        | none =>
          by_cases hcb : c = ']'
          · subst hcb
            rw [scanClose_cons, if_pos rfl, if_pos rfl] at h
            cases h
          · by_cases hob : c = '['
            · subst hob
              have hne : ¬('[' : Char) = ']' := by decide
              rw [scanClose_cons, if_neg hne, if_pos rfl] at h
              rw [scanClose_succ] at h
              cases hsc : scanClose rest (Position.advance pos '[') 0 with
              | none =>
                rw [parseAux_open, ih rest hlen' f (Position.advance pos '[') hfuel' hsc]
              | some rp =>
                obtain ⟨r1, q1⟩ := rp
                rw [hsc] at h
                simp only [Option.some_bind] at h
                obtain ⟨body, hrec1⟩ :=
                  parseAux_true_ok_of_scanClose rest.length rest (Nat.le_refl _) f
                    (Position.advance pos '[') r1 q1 hfuel' hsc
                have hr1len : r1.length < rest.length := scanClose_some_length _ _ _ _ _ hsc
                have hrec2 :=
                  ih r1 (Nat.le_of_lt (Nat.lt_of_lt_of_le hr1len hlen')) f q1
                    (Nat.le_of_lt (Nat.lt_of_lt_of_le hr1len hfuel')) h
                rw [parseAux_open_build_error f true rest pos body r1 q1 _ hrec1 hrec2]
                obtain ⟨pre, hsplit, -, hpos⟩ := scanClose_decomp rest _ 0 r1 q1 hsc
                rw [hsplit, endPosition_append, ← hpos]
            · rw [scanClose_cons, if_neg hcb, if_neg hob] at h
              rw [parseAux_comment f true c rest pos hc hob hcb,
                ih rest hlen' f (pos.advance c) hfuel' h]

/-- Top-level runs fail with `UnmatchedClosingBracket` at the first closing
bracket that appears outside any open loop body. -/
theorem parseAux_false_unmatched : ∀ (n : Nat) (cs : List Char), cs.length ≤ n →
    ∀ (fuel : Nat) (pos : Position) (p : Position), cs.length ≤ fuel →
    findUnmatched cs pos 0 = some p →
    parseAux fuel false cs pos = .error (.UnmatchedClosingBracket p) := by
  intro n
  induction n with
  | zero =>
    intro cs hlen fuel pos p hfuel h
    have hcs : cs = [] := List.length_eq_zero.mp (Nat.le_zero.mp hlen)
    subst hcs
    cases h
  | succ n ih =>
    intro cs hlen fuel pos p hfuel h
    cases cs with
    | nil => cases h
    | cons c rest =>
      have hlen' : rest.length ≤ n := Nat.le_of_succ_le_succ hlen
      cases fuel with
      | zero => simp at hfuel
      | succ f =>
        have hfuel' : rest.length ≤ f := Nat.le_of_succ_le_succ hfuel
        cases hc : parse_command c with
        | some cmd =>
          obtain ⟨hob, hcb⟩ := parse_command_ne_brackets c cmd hc
          rw [findUnmatched_cons, if_neg hcb, if_neg hob] at h
          rw [parseAux_cmd f false c cmd rest pos hc,
            ih rest hlen' f (pos.advance c) p hfuel' h]
        | none =>
          by_cases hcb : c = ']'
          · subst hcb
            rw [findUnmatched_cons, if_pos rfl, if_pos rfl] at h
            cases h
            exact parseAux_close_top f rest pos
          · by_cases hob : c = '['
            · subst hob
              have hne : ¬('[' : Char) = ']' := by decide
              rw [findUnmatched_cons, if_neg hne, if_pos rfl] at h
              rw [findUnmatched_succ] at h
              cases hsc : scanClose rest (Position.advance pos '[') 0 with
              | none => rw [hsc] at h; cases h
              | some rp =>
                obtain ⟨r1, q1⟩ := rp
                rw [hsc] at h
                simp only [Option.some_bind] at h
                obtain ⟨body, hrec1⟩ :=
                  parseAux_true_ok_of_scanClose rest.length rest (Nat.le_refl _) f
                    (Position.advance pos '[') r1 q1 hfuel' hsc
                have hr1len : r1.length < rest.length := scanClose_some_length _ _ _ _ _ hsc
                have hrec2 :=
                  ih r1 (Nat.le_of_lt (Nat.lt_of_lt_of_le hr1len hlen')) f q1 p
                    (Nat.le_of_lt (Nat.lt_of_lt_of_le hr1len hfuel')) h
                exact parseAux_open_build_error f false rest pos body r1 q1 _ hrec1 hrec2
            · rw [findUnmatched_cons, if_neg hcb, if_neg hob] at h
              rw [parseAux_comment f false c rest pos hc hob hcb]
              exact ih rest hlen' f (pos.advance c) p hfuel' h

/-- Top-level runs over input with no depth-zero closing bracket but more
opening than closing brackets fail with `UnexpectedEndOfInput` at the final
position. -/
theorem parseAux_false_eoi : ∀ (n : Nat) (cs : List Char), cs.length ≤ n →
    ∀ (fuel : Nat) (pos : Position), cs.length ≤ fuel →
    findUnmatched cs pos 0 = none → countClose cs < countOpen cs →
    parseAux fuel false cs pos = .error (.UnexpectedEndOfInput (endPosition pos cs)) := by
  intro n
  induction n with
  | zero =>
    intro cs hlen fuel pos hfuel h hcount
    have hcs : cs = [] := List.length_eq_zero.mp (Nat.le_zero.mp hlen)
    subst hcs
    simp [countOpen, countClose] at hcount
  | succ n ih =>
    intro cs hlen fuel pos hfuel h hcount
    cases cs with
    | nil => simp [countOpen, countClose] at hcount
    | cons c rest =>
      have hlen' : rest.length ≤ n := Nat.le_of_succ_le_succ hlen
      cases fuel with
      | zero => simp at hfuel
      | succ f =>
        have hfuel' : rest.length ≤ f := Nat.le_of_succ_le_succ hfuel
        rw [endPosition_cons]
        cases hc : parse_command c with
        | some cmd =>
          obtain ⟨hob, hcb⟩ := parse_command_ne_brackets c cmd hc
          rw [findUnmatched_cons, if_neg hcb, if_neg hob] at h
          rw [countOpen_cons_of_ne c rest hob, countClose_cons_of_ne c rest hcb] at hcount
          rw [parseAux_cmd f false c cmd rest pos hc,
            ih rest hlen' f (pos.advance c) hfuel' h hcount]
        | none =>
          by_cases hcb : c = ']'
          · subst hcb
            rw [findUnmatched_cons, if_pos rfl, if_pos rfl] at h
            cases h
          · by_cases hob : c = '['
            · subst hob
              have hne : ¬('[' : Char) = ']' := by decide
              rw [findUnmatched_cons, if_neg hne, if_pos rfl] at h
              rw [findUnmatched_succ] at h
              rw [countOpen_cons_open, countClose_cons_of_ne _ rest hne] at hcount
              cases hsc : scanClose rest (Position.advance pos '[') 0 with
              | none =>
                have hrec := parseAux_true_error_of_scanClose_none rest.length rest
                  (Nat.le_refl _) f (Position.advance pos '[') hfuel' hsc
                rw [parseAux_open, hrec]
              | some rp =>
                obtain ⟨r1, q1⟩ := rp
                rw [hsc] at h
                simp only [Option.some_bind] at h
                obtain ⟨body, hrec1⟩ :=
                  parseAux_true_ok_of_scanClose rest.length rest (Nat.le_refl _) f
                    (Position.advance pos '[') r1 q1 hfuel' hsc
                have hr1len : r1.length < rest.length := scanClose_some_length _ _ _ _ _ hsc
                obtain ⟨pre, hsplit, hcnt, hpos⟩ := scanClose_decomp rest _ 0 r1 q1 hsc
                have hcount' : countClose r1 < countOpen r1 := by
                  rw [hsplit, countOpen_append, countClose_append] at hcount
                  omega
                have hrec2 :=
                  ih r1 (Nat.le_of_lt (Nat.lt_of_lt_of_le hr1len hlen')) f q1
                    (Nat.le_of_lt (Nat.lt_of_lt_of_le hr1len hfuel')) h hcount'
                rw [parseAux_open_build_error f false rest pos body r1 q1 _ hrec1 hrec2]
                rw [hsplit, endPosition_append, ← hpos]
            · rw [findUnmatched_cons, if_neg hcb, if_neg hob] at h
              rw [countOpen_cons_of_ne c rest hob, countClose_cons_of_ne c rest hcb] at hcount
              rw [parseAux_comment f false c rest pos hc hob hcb]
              exact ih rest hlen' f (pos.advance c) hfuel' h hcount

end BridgeLemmas

section ClaimC6C7

/-- C6: for every source text in which a closing bracket occurs at the top
level, outside any open loop body (the bracket scan from depth zero hits a
depth-zero closing bracket), `parse` stops at the first such bracket and
returns `UnmatchedClosingBracket` carrying that bracket's position; the error
result carries no AST. -/
theorem unmatched_closing_bracket_error (source : String) (p : Position)
    (h : findUnmatched source.data Position.new 0 = some p) :
    parse_brainfuck source = .error (.UnmatchedClosingBracket p) := by
  unfold parse_brainfuck
  rw [parseAux_false_unmatched source.data.length source.data (Nat.le_refl _)
    source.data.length Position.new p (Nat.le_refl _) h]

/-- Witness for C6: the test-suite input `"+]"` fails with
`UnmatchedClosingBracket` at line 1, column 2. -/
theorem unmatched_closing_bracket_error_witness :
    findUnmatched "+]".data Position.new 0 = some ⟨1, 2⟩ ∧
      parse_brainfuck "+]" = .error (.UnmatchedClosingBracket ⟨1, 2⟩) :=
  ⟨rfl, unmatched_closing_bracket_error "+]" ⟨1, 2⟩ rfl⟩

/-- C7: for every source text that ends while at least one loop body is still
open (no closing bracket ever occurs at top level, and there are more opening
than closing brackets), `parse` fails with `UnexpectedEndOfInput` at the
position where the input ran out. -/
theorem unexpected_end_of_input_error (source : String)
    (h : findUnmatched source.data Position.new 0 = none)
    (hcount : countClose source.data < countOpen source.data) :
    parse_brainfuck source =
      .error (.UnexpectedEndOfInput (endPosition Position.new source.data)) := by
  unfold parse_brainfuck
  rw [parseAux_false_eoi source.data.length source.data (Nat.le_refl _)
    source.data.length Position.new (Nat.le_refl _) h hcount]

/-- Witness for C7: the test-suite input `"[+"` fails with
`UnexpectedEndOfInput` at line 1, column 3. -/
theorem unexpected_end_of_input_error_witness :
    findUnmatched "[+".data Position.new 0 = none ∧
      countClose "[+".data < countOpen "[+".data ∧
      parse_brainfuck "[+" = .error (.UnexpectedEndOfInput ⟨1, 3⟩) :=
  ⟨rfl, by decide, unexpected_end_of_input_error "[+" rfl (by decide)⟩

end ClaimC6C7

section ClaimC8

/-- A character that is not meaningful is neither a command nor a bracket. -/
theorem isCommandChar_false_elim (c : Char) (h : isCommandChar c = false) :
    parse_command c = none ∧ c ≠ '[' ∧ c ≠ ']' := by
  refine ⟨?_, ?_, ?_⟩
  · cases hv : parse_command c with
    | none => rfl
    | some cmd => simp [isCommandChar, hv] at h
  · intro he
    subst he
    rw [show isCommandChar '[' = true from rfl] at h
    cases h
  · intro he
    subst he
    rw [show isCommandChar ']' = true from rfl] at h
    cases h

/-- A meaningful character that is not a command and not a closing bracket is
an opening bracket. -/
theorem isCommandChar_open (c : Char) (h1 : parse_command c = none) (h2 : c ≠ ']')
    (h3 : isCommandChar c = true) : c = '[' := by
  unfold isCommandChar at h3
  rw [h1] at h3
  simp at h3
  cases h3 with
  | inl h => exact h
  | inr h => exact absurd h h2

/-- Lexing depends only on the meaningful characters: two inputs with the same
commands and brackets in the same order produce the same nodes, and the
leftovers again agree on meaningful characters. Positions may differ. -/
theorem parseAux_filter_aux : ∀ (n : Nat) (cs cs' : List Char), cs.length + cs'.length ≤ n →
    ∀ (inLoop : Bool) (fuel fuel' : Nat) (pos pos' : Position)
      (ns : List AstNode) (r : List Char) (p : Position),
    cs.length ≤ fuel → cs'.length ≤ fuel' →
    cs.filter isCommandChar = cs'.filter isCommandChar →
    parseAux fuel inLoop cs pos = .ok (ns, r, p) →
    ∃ r' p', parseAux fuel' inLoop cs' pos' = .ok (ns, r', p') ∧
      r.filter isCommandChar = r'.filter isCommandChar := by
  intro n
  induction n with
  | zero =>
    intro cs cs' hn inLoop fuel fuel' pos pos' ns r p hf hf' hfil h
    have hcs : cs = [] := by cases cs with | nil => rfl | cons a b => simp at hn
    have hcs' : cs' = [] := by cases cs' with | nil => rfl | cons a b => simp at hn
    subst hcs
    subst hcs'
    obtain ⟨hl, hns, hr, hp⟩ := parseAux_nil_ok fuel inLoop pos ns r p h
    subst hl
    subst hns
    subst hr
    refine ⟨[], pos', ?_, rfl⟩
    rw [parseAux_nil]
    rfl
  | succ n ih =>
    intro cs cs' hn inLoop fuel fuel' pos pos' ns r p hf hf' hfil h
    by_cases hA : ∃ c t, cs = c :: t ∧ isCommandChar c = false
    · obtain ⟨c, t, rfl, hcomm⟩ := hA
      obtain ⟨hpc, hob, hcb⟩ := isCommandChar_false_elim c hcomm
      cases fuel with
      | zero => simp at hf
      | succ f =>
        rw [parseAux_comment f inLoop c t pos hpc hob hcb] at h
        simp only [List.filter_cons, hcomm] at hfil
        rw [if_neg (by simp)] at hfil
        exact ih t cs' (by simp only [List.length_cons] at hn; omega) inLoop f fuel'
          (pos.advance c) pos' ns r p (by simp only [List.length_cons] at hf; omega) hf' hfil h
    · by_cases hB : ∃ c' t', cs' = c' :: t' ∧ isCommandChar c' = false
      · obtain ⟨c', t', rfl, hcomm'⟩ := hB
        obtain ⟨hpc', hob', hcb'⟩ := isCommandChar_false_elim c' hcomm'
        cases fuel' with
        | zero => simp at hf'
        | succ f' =>
          simp only [List.filter_cons, hcomm'] at hfil
          rw [if_neg (by simp)] at hfil
          obtain ⟨r', p', hps, hfr⟩ :=
            ih cs t' (by simp only [List.length_cons] at hn; omega) inLoop fuel f'
              pos (pos'.advance c') ns r p hf
              (by simp only [List.length_cons] at hf'; omega) hfil h
          refine ⟨r', p', ?_, hfr⟩
          rw [parseAux_comment f' inLoop c' t' pos' hpc' hob' hcb']
          exact hps
      · cases cs with
        | nil =>
          cases cs' with
          | nil =>
            obtain ⟨hl, hns, hr, hp⟩ := parseAux_nil_ok fuel inLoop pos ns r p h
            subst hl
            subst hns
            subst hr
            refine ⟨[], pos', ?_, rfl⟩
            rw [parseAux_nil]
            rfl
          | cons c' t' =>
            cases hq : isCommandChar c' with
            | false => exact absurd ⟨c', t', rfl, hq⟩ hB
            | true => simp [List.filter_cons, hq] at hfil
        | cons c t =>
          have hcc : isCommandChar c = true := by
            cases hq : isCommandChar c with
            | false => exact absurd ⟨c, t, rfl, hq⟩ hA
            | true => rfl
          cases cs' with
          | nil => simp [List.filter_cons, hcc] at hfil
          | cons c' t' =>
            have hcc' : isCommandChar c' = true := by
              cases hq : isCommandChar c' with
              | false => exact absurd ⟨c', t', rfl, hq⟩ hB
              | true => rfl
            simp only [List.filter_cons, hcc, hcc', if_pos, List.cons.injEq] at hfil
            obtain ⟨rfl, hfilt⟩ := hfil
            cases fuel with
            | zero => simp at hf
            | succ f =>
              cases fuel' with
              | zero => simp at hf'
              | succ f' =>
                have hf1 : t.length ≤ f := by simp only [List.length_cons] at hf; omega
                have hf1' : t'.length ≤ f' := by simp only [List.length_cons] at hf'; omega
                have hnt : t.length + t'.length ≤ n := by
                  simp only [List.length_cons] at hn; omega
                cases hc : parse_command c with
                | some cmd =>
                  obtain ⟨ns0, hrec, rfl⟩ := parseAux_cmd_ok f inLoop c cmd t pos ns r p hc h
                  obtain ⟨r', p', hps, hfr⟩ :=
                    ih t t' hnt inLoop f f' (pos.advance c) (pos'.advance c) ns0 r p
                      hf1 hf1' hfilt hrec
                  refine ⟨r', p', ?_, hfr⟩
                  rw [parseAux_cmd f' inLoop c cmd t' pos' hc, hps]
                | none =>
                  by_cases hcb : c = ']'
                  · subst hcb
                    cases inLoop with
                    | false =>
                      rw [parseAux_close_top] at h
                      cases h
                    | true =>
                      rw [parseAux_close_loop] at h
                      simp only [Except.ok.injEq, Prod.mk.injEq] at h
                      obtain ⟨hns, hr, hp⟩ := h
                      subst hns
                      subst hr
                      refine ⟨t', pos'.advance ']', ?_, hfilt⟩
                      rw [parseAux_close_loop]
                  · have hob : c = '[' := isCommandChar_open c hc hcb hcc
                    subst hob
                    obtain ⟨body, r1, p1, ns2, h1, h2, rfl⟩ :=
                      parseAux_open_ok f inLoop t pos ns r p h
                    have hlen1 : r1.length ≤ t.length := parseAux_ok_length f true t _ body r1 p1 h1
                    obtain ⟨r1', p1', h1', hfr1⟩ :=
                      ih t t' hnt true f f' (pos.advance '[') (pos'.advance '[') body r1 p1
                        hf1 hf1' hfilt h1
                    have hlen1' : r1'.length ≤ t'.length :=
                      parseAux_ok_length f' true t' _ body r1' p1' h1'
                    obtain ⟨r2', p2', h2', hfr2⟩ :=
                      ih r1 r1' (by omega) inLoop f f' p1 p1' ns2 r p
                        (by omega) (by omega) hfr1 h2
                    refine ⟨r2', p2', ?_, hfr2⟩
                    exact parseAux_open_build_ok f' inLoop t' pos' body r1' p1' ns2 r2' p2' h1' h2'

/-- C8: parsing is insensitive to comment characters. If a source parses
successfully and a second source has the same meaningful characters (commands
and brackets) in the same order — in particular, if it is obtained by
inserting arbitrary non-command characters anywhere — then the second source
parses to the same AST. -/
theorem comment_insensitive_parse (s t : String) (ast : List AstNode)
    (h : parse_brainfuck s = .ok ast)
    (hfil : s.data.filter isCommandChar = t.data.filter isCommandChar) :
    parse_brainfuck t = .ok ast := by
  unfold parse_brainfuck at h ⊢
  cases hps : parseAux s.data.length false s.data Position.new with
  | error e =>
    rw [hps] at h
    cases h
  | ok v =>
    obtain ⟨ns, r, p⟩ := v
    rw [hps] at h
    simp only [Except.ok.injEq] at h
    subst h
    obtain ⟨r', p', hps', -⟩ :=
      parseAux_filter_aux (s.data.length + t.data.length) s.data t.data (Nat.le_refl _)
        false s.data.length t.data.length Position.new Position.new ns r p
        (Nat.le_refl _) (Nat.le_refl _) hfil hps
    rw [hps']

/-- Witness for C8: `"Hello + World - Test"` is `"+-"` with comment characters
inserted, and parses to the same two-command AST. -/
theorem comment_insensitive_parse_witness :
    parse_brainfuck "+-" = .ok [.Command .Increment, .Command .Decrement] ∧
      "+-".data.filter isCommandChar = "Hello + World - Test".data.filter isCommandChar ∧
      parse_brainfuck "Hello + World - Test" = .ok [.Command .Increment, .Command .Decrement] :=
  ⟨rfl, rfl, comment_insensitive_parse "+-" "Hello + World - Test" _ rfl rfl⟩

end ClaimC8

section ClaimC9

/-- Unfolding: empty scan. -/
theorem scanBrackets_nil (d m : Int) : scanBrackets [] d m = (d, m) := rfl

/-- Unfolding: an opening bracket raises the depth and the running maximum. -/
theorem scanBrackets_cons_open (l : List Char) (d m : Int) :
    scanBrackets ('[' :: l) d m = scanBrackets l (d + 1) (max m (d + 1)) := rfl

/-- Unfolding: a closing bracket lowers the depth. -/
theorem scanBrackets_cons_close (l : List Char) (d m : Int) :
    scanBrackets (']' :: l) d m = scanBrackets l (d - 1) m := rfl

/-- Unfolding: any other character leaves the scan state unchanged. -/
theorem scanBrackets_cons_other (c : Char) (l : List Char) (d m : Int)
    (h1 : c ≠ '[') (h2 : c ≠ ']') :
    scanBrackets (c :: l) d m = scanBrackets l d m := by
  rw [show scanBrackets (c :: l) d m =
    (if c = '[' then scanBrackets l (d + 1) (max m (d + 1))
     else if c = ']' then scanBrackets l (d - 1) m
     else scanBrackets l d m) from rfl, if_neg h1, if_neg h2]

/-- Scanning an append threads the state through the first part. -/
theorem scanBrackets_append (a b : List Char) : ∀ (d m : Int),
    scanBrackets (a ++ b) d m =
      scanBrackets b (scanBrackets a d m).1 (scanBrackets a d m).2 := by
  induction a with
  | nil => intro d m; rfl
  | cons c rest ih =>
    intro d m
    by_cases h1 : c = '['
    · subst h1
      rw [List.cons_append, scanBrackets_cons_open, scanBrackets_cons_open, ih]
    · by_cases h2 : c = ']'
      · subst h2
        rw [List.cons_append, scanBrackets_cons_close, scanBrackets_cons_close, ih]
      · rw [List.cons_append, scanBrackets_cons_other c _ _ _ h1 h2,
          scanBrackets_cons_other c _ _ _ h1 h2, ih]

/-- Unfolding: no loops in an empty node list. -/
theorem countLoops_nil : countLoops [] = 0 := rfl

/-- Unfolding: loop count of a cons. -/
theorem countLoops_cons (n : AstNode) (rest : List AstNode) :
    countLoops (n :: rest) = nodeLoops n + countLoops rest := rfl

/-- Unfolding: a command leaf contains no loops. -/
theorem nodeLoops_command (cmd : Command) : nodeLoops (AstNode.Command cmd) = 0 := rfl

/-- Unfolding: a loop node contains itself plus its body's loops. -/
theorem nodeLoops_loop (body : List AstNode) :
    nodeLoops (AstNode.Loop body) = 1 + countLoops body := rfl

/-- Unfolding: empty node list has depth zero. -/
theorem astDepth_nil : astDepth [] = 0 := rfl

/-- Unfolding: depth of a cons. -/
theorem astDepth_cons (n : AstNode) (rest : List AstNode) :
    astDepth (n :: rest) = max (nodeDepth n) (astDepth rest) := rfl

/-- Unfolding: a command leaf has depth zero. -/
theorem nodeDepth_command (cmd : Command) : nodeDepth (AstNode.Command cmd) = 0 := rfl

/-- Unfolding: a loop node is one deeper than its body. -/
theorem nodeDepth_loop (body : List AstNode) :
    nodeDepth (AstNode.Loop body) = astDepth body + 1 := rfl

/-- Structure of a successful lexer run: the consumed prefix has one matched
bracket pair per loop node (so `loopDelta` extra closing brackets), a
top-level run consumes everything, and the bracket-depth scan of the consumed
prefix peaks exactly at the nesting depth of the returned nodes. -/
theorem parseAux_ok_struct : ∀ (n : Nat) (cs : List Char), cs.length ≤ n →
    ∀ (fuel : Nat) (inLoop : Bool) (pos : Position) (ns : List AstNode) (r : List Char)
      (p : Position), cs.length ≤ fuel →
    parseAux fuel inLoop cs pos = .ok (ns, r, p) →
    ∃ pre, cs = pre ++ r ∧
      countLoops ns = countOpen pre ∧
      countClose pre = countOpen pre + loopDelta inLoop ∧
      (inLoop = false → r = []) ∧
      ∀ (d m : Int), d ≤ m →
        scanBrackets pre d m = (d - loopDelta inLoop, max m (d + (astDepth ns : Int))) := by
  intro n
  induction n with
  | zero =>
    intro cs hlen fuel inLoop pos ns r p hfuel h
    have hcs : cs = [] := List.length_eq_zero.mp (Nat.le_zero.mp hlen)
    subst hcs
    obtain ⟨hl, hns, hr, -⟩ := parseAux_nil_ok fuel inLoop pos ns r p h
    subst hl
    subst hns
    subst hr
    refine ⟨[], rfl, rfl, rfl, fun _ => rfl, ?_⟩
    intro d m hdm
    rw [scanBrackets_nil]
    simp only [astDepth_nil, loopDelta, Nat.cast_zero, add_zero, sub_zero, Prod.mk.injEq,
      true_and]
    omega
  | succ n ih =>
    intro cs hlen fuel inLoop pos ns r p hfuel h
    cases cs with
    | nil =>
      obtain ⟨hl, hns, hr, -⟩ := parseAux_nil_ok fuel inLoop pos ns r p h
      subst hl
      subst hns
      subst hr
      refine ⟨[], rfl, rfl, rfl, fun _ => rfl, ?_⟩
      intro d m hdm
      rw [scanBrackets_nil]
      simp only [astDepth_nil, loopDelta, Nat.cast_zero, add_zero, sub_zero, Prod.mk.injEq,
        true_and]
      omega
    | cons c rest =>
      have hlen' : rest.length ≤ n := Nat.le_of_succ_le_succ hlen
      cases fuel with
      | zero => simp at hfuel
      | succ f =>
        have hfuel' : rest.length ≤ f := Nat.le_of_succ_le_succ hfuel
        cases hc : parse_command c with
        | some cmd =>
          obtain ⟨hob, hcb⟩ := parse_command_ne_brackets c cmd hc
          obtain ⟨ns0, hrec, rfl⟩ := parseAux_cmd_ok f inLoop c cmd rest pos ns r p hc h
          obtain ⟨pre0, hsp, hcl, hcc, hre, hscan⟩ :=
            ih rest hlen' f inLoop (pos.advance c) ns0 r p hfuel' hrec
          refine ⟨c :: pre0, by simp [hsp], ?_, ?_, hre, ?_⟩
          · rw [countLoops_cons, nodeLoops_command, countOpen_cons_of_ne c pre0 hob]
            omega
          · rw [countClose_cons_of_ne c pre0 hcb, countOpen_cons_of_ne c pre0 hob]
            exact hcc
          · intro d m hdm
            rw [scanBrackets_cons_other c pre0 d m hob hcb, hscan d m hdm,
              astDepth_cons, nodeDepth_command]
            simp [Nat.zero_max]
        | none =>
          by_cases hcb : c = ']'
          · subst hcb
            cases inLoop with
            | false =>
              rw [parseAux_close_top] at h
              cases h
            | true =>
              rw [parseAux_close_loop] at h
              simp only [Except.ok.injEq, Prod.mk.injEq] at h
              obtain ⟨hns, hr, -⟩ := h
              subst hns
              subst hr
              refine ⟨[']'], rfl, rfl, by decide, ?_, ?_⟩
              · intro hfalse
                exact absurd hfalse (by decide)
              · intro d m hdm
                rw [scanBrackets_cons_close, scanBrackets_nil]
                simp only [astDepth_nil, loopDelta, Nat.cast_zero, add_zero, Nat.cast_one,
                  Prod.mk.injEq, true_and]
                omega
          · by_cases hob : c = '['
            swap
            · rw [parseAux_comment f inLoop c rest pos hc hob hcb] at h
              obtain ⟨pre0, hsp, hcl, hcc, hre, hscan⟩ :=
                ih rest hlen' f inLoop (pos.advance c) ns r p hfuel' h
              refine ⟨c :: pre0, by simp [hsp], ?_, ?_, hre, ?_⟩
              · rw [countOpen_cons_of_ne c pre0 hob]
                exact hcl
              · rw [countClose_cons_of_ne c pre0 hcb, countOpen_cons_of_ne c pre0 hob]
                exact hcc
              · intro d m hdm
                rw [scanBrackets_cons_other c pre0 d m hob hcb]
                exact hscan d m hdm
            subst hob
            obtain ⟨body, r1, p1, ns2, h1, h2, rfl⟩ := parseAux_open_ok f inLoop rest pos ns r p h
            have hlen1 : r1.length ≤ rest.length := parseAux_ok_length f true rest _ body r1 p1 h1
            obtain ⟨pre1, hsp1, hcl1, hcc1, -, hscan1⟩ :=
              ih rest hlen' f true (pos.advance '[') body r1 p1 hfuel' h1
            obtain ⟨pre2, hsp2, hcl2, hcc2, hre2, hscan2⟩ :=
              ih r1 (Nat.le_trans hlen1 hlen') f inLoop p1 ns2 r p
                (Nat.le_trans hlen1 hfuel') h2
            simp only [loopDelta, Nat.cast_one] at hcc1 hscan1
            refine ⟨'[' :: (pre1 ++ pre2), ?_, ?_, ?_, hre2, ?_⟩
            · simp [hsp1, hsp2, List.append_assoc]
            · rw [countLoops_cons, nodeLoops_loop, countOpen_cons_open, countOpen_append]
              omega
            · rw [countClose_cons_of_ne '[' _ (by decide), countOpen_cons_open,
                countClose_append, countOpen_append]
              omega
            · intro d m hdm
              rw [scanBrackets_cons_open, scanBrackets_append,
                hscan1 (d + 1) (max m (d + 1)) (le_max_right _ _)]
              have hle2 : d + 1 - 1 ≤ max (max m (d + 1)) (d + 1 + (astDepth body : Int)) := by
                have : (0 : Int) ≤ (astDepth body : Int) := Int.natCast_nonneg _
                omega
              rw [show ((d + 1 - 1, max (max m (d + 1)) (d + 1 + (astDepth body : Int))) :
                  Int × Int).1 = d + 1 - 1 from rfl,
                show ((d + 1 - 1, max (max m (d + 1)) (d + 1 + (astDepth body : Int))) :
                  Int × Int).2 = max (max m (d + 1)) (d + 1 + (astDepth body : Int)) from rfl,
                hscan2 (d + 1 - 1) (max (max m (d + 1)) (d + 1 + (astDepth body : Int))) hle2,
                astDepth_cons, nodeDepth_loop]
              simp only [Prod.mk.injEq]
              constructor
              · omega
              · push_cast
                have : (0 : Int) ≤ (astDepth body : Int) := Int.natCast_nonneg _
                have : (0 : Int) ≤ (astDepth ns2 : Int) := Int.natCast_nonneg _
                omega

/-- C9: for a source text accepted by the parser, the number of loop nodes in
the AST, counted recursively, equals the number of opening brackets (all of
which are matched, since the closing count agrees), and the bracket-depth
scan of the source ends at depth zero with its maximum equal to the nesting
depth of the AST. -/
theorem loop_count_and_depth (source : String) (ast : List AstNode)
    (h : parse_brainfuck source = .ok ast) :
    countLoops ast = countOpen source.data ∧
      countClose source.data = countOpen source.data ∧
      scanBrackets source.data 0 0 = (0, (astDepth ast : Int)) := by
  unfold parse_brainfuck at h
  cases hps : parseAux source.data.length false source.data Position.new with
  | error e =>
    rw [hps] at h
    cases h
  | ok v =>
    obtain ⟨ns, r, p⟩ := v
    rw [hps] at h
    simp only [Except.ok.injEq] at h
    subst h
    obtain ⟨pre, hsp, hcl, hcc, hre, hscan⟩ :=
      parseAux_ok_struct source.data.length source.data (Nat.le_refl _)
        source.data.length false Position.new ns r p (Nat.le_refl _) hps
    have hr : r = [] := hre rfl
    subst hr
    rw [List.append_nil] at hsp
    subst hsp
    simp only [loopDelta, Nat.add_zero] at hcl hcc
    refine ⟨hcl, hcc, ?_⟩
    have := hscan 0 0 (Int.le_refl 0)
    rw [this]
    simp only [loopDelta, Nat.cast_zero, sub_zero, zero_add, Prod.mk.injEq, true_and]
    have h0 : (0 : Int) ≤ (astDepth ns : Int) := Int.natCast_nonneg _
    omega

/-- Witness for C9: the nested program `"[+[-]]"` has two loop nodes, two
matched bracket pairs, and nesting depth two. -/
theorem loop_count_and_depth_witness :
    parse_brainfuck "[+[-]]" =
        .ok [.Loop [.Command .Increment, .Loop [.Command .Decrement]]] ∧
      (countLoops [.Loop [.Command .Increment, .Loop [.Command .Decrement]]] =
          countOpen "[+[-]]".data ∧
        countClose "[+[-]]".data = countOpen "[+[-]]".data ∧
        scanBrackets "[+[-]]".data 0 0 =
          (0, (astDepth [.Loop [.Command .Increment, .Loop [.Command .Decrement]]] : Int))) :=
  ⟨rfl, loop_count_and_depth "[+[-]]" _ rfl⟩

end ClaimC9

section SimLemmas

/-- Reading back the freshly written cell. -/
theorem getD_set_self : ∀ (l : List Nat) (i : Nat) (x : Nat), i < l.length →
    (l.set i x).getD i 0 = x := by
  intro l
  induction l with
  | nil => intro i x h; simp at h
  | cons a rest ih =>
    intro i x h
    cases i with
    | zero => rfl
    | succ j =>
      have : j < rest.length := by simp at h; omega
      simpa using ih j x this

/-- Membership in a list after `set` comes from the old list or is the new
value. -/
theorem mem_of_mem_set : ∀ (l : List Nat) (i : Nat) (x v : Nat), v ∈ l.set i x →
    v ∈ l ∨ v = x := by
  intro l
  induction l with
  | nil => intro i x v h; simp at h
  | cons a rest ih =>
    intro i x v h
    cases i with
    | zero =>
      simp only [List.set] at h
      rcases List.mem_cons.mp h with h1 | h1
      · exact Or.inr h1
      · exact Or.inl (List.mem_cons_of_mem a h1)
    | succ j =>
      simp only [List.set] at h
      rcases List.mem_cons.mp h with h1 | h1
      · exact Or.inl (h1 ▸ List.mem_cons_self a rest)
      · rcases ih j x v h1 with h2 | h2
        · exact Or.inl (List.mem_cons_of_mem a h2)
        · exact Or.inr h2

end SimLemmas

section ClaimC4C5

/-- C4: cell arithmetic in the builder's compile-time evaluation is modulo
256. Starting from a state whose cells are all bytes, any command leaves all
cells below 256; incrementing a cell holding 255 yields 0 and decrementing a
cell holding 0 yields 255. -/
theorem cell_wrapping (s s' : SimState) (cmd : Command)
    (hpos : s.position < s.memory.length)
    (hmem : ∀ v ∈ s.memory, v < 256)
    (hrun : process_command_with_lamina s cmd = .ok s') :
    (∀ v ∈ s'.memory, v < 256) ∧
      (cmd = Command.Increment → current_value s = 255 → current_value s' = 0) ∧
      (cmd = Command.Decrement → current_value s = 0 → current_value s' = 255) := by
  cases cmd with
  | Right =>
    simp only [process_command_with_lamina, Except.ok.injEq] at hrun
    subst hrun
    refine ⟨hmem, ?_, ?_⟩
    · intro h
      exact absurd h (by decide)
    · intro h
      exact absurd h (by decide)
  | Left =>
    simp only [process_command_with_lamina, Except.ok.injEq] at hrun
    subst hrun
    refine ⟨hmem, ?_, ?_⟩
    · intro h
      exact absurd h (by decide)
    · intro h
      exact absurd h (by decide)
  | Output =>
    simp only [process_command_with_lamina, Except.ok.injEq] at hrun
    subst hrun
    refine ⟨hmem, ?_, ?_⟩
    · intro h
      exact absurd h (by decide)
    · intro h
      exact absurd h (by decide)
  | Input =>
    simp only [process_command_with_lamina, Except.ok.injEq] at hrun
    subst hrun
    refine ⟨hmem, ?_, ?_⟩
    · intro h
      exact absurd h (by decide)
    · intro h
      exact absurd h (by decide)
  | Increment =>
    simp only [process_command_with_lamina, Except.ok.injEq] at hrun
    subst hrun
    refine ⟨?_, ?_, ?_⟩
    · intro v hv
      rw [if_pos hpos] at hv
      rcases mem_of_mem_set s.memory s.position _ v hv with h1 | h1
      · exact hmem v h1
      · rw [h1]
        exact Nat.mod_lt _ (by norm_num)
    · intro _ h255
      rw [if_pos hpos, h255]
      show (if s.position < (s.memory.set s.position ((255 + 1) % 256)).length
          then (s.memory.set s.position ((255 + 1) % 256)).getD s.position 0 else 0) = 0
      rw [List.length_set, if_pos hpos, getD_set_self _ _ _ hpos]
    · intro h
      exact absurd h (by decide)
  | Decrement =>
    simp only [process_command_with_lamina, Except.ok.injEq] at hrun
    subst hrun
    refine ⟨?_, ?_, ?_⟩
    · intro v hv
      rw [if_pos hpos] at hv
      rcases mem_of_mem_set s.memory s.position _ v hv with h1 | h1
      · exact hmem v h1
      · rw [h1]
        exact Nat.mod_lt _ (by norm_num)
    · intro h
      exact absurd h (by decide)
    · intro _ h0
      rw [if_pos hpos, h0]
      show (if s.position < (s.memory.set s.position ((0 + 255) % 256)).length
          then (s.memory.set s.position ((0 + 255) % 256)).getD s.position 0 else 0) = 255
      rw [List.length_set, if_pos hpos, getD_set_self _ _ _ hpos]

/-- Witness for C4: incrementing a single-cell tape holding 255 wraps to 0. -/
theorem cell_wrapping_witness :
    ((⟨[255], 0, [], 0⟩ : SimState).position < (⟨[255], 0, [], 0⟩ : SimState).memory.length ∧
        ∀ v ∈ (⟨[255], 0, [], 0⟩ : SimState).memory, v < 256) ∧
      ((∀ v ∈ (⟨[0], 0, [], 0⟩ : SimState).memory, v < 256) ∧
        (Command.Increment = Command.Increment →
          current_value ⟨[255], 0, [], 0⟩ = 255 → current_value ⟨[0], 0, [], 0⟩ = 0) ∧
        (Command.Increment = Command.Decrement →
          current_value ⟨[255], 0, [], 0⟩ = 0 → current_value ⟨[0], 0, [], 0⟩ = 255)) :=
  ⟨⟨by decide, by decide⟩,
    cell_wrapping ⟨[255], 0, [], 0⟩ ⟨[0], 0, [], 0⟩ Command.Increment (by decide) (by decide) rfl⟩

/-- C5: pointer movement in the builder's compile-time evaluation saturates.
From a state whose pointer is in bounds, `Left` at position 0 stays at 0,
`Right` at the last index stays at the last index, and every command keeps
the pointer in bounds. -/
theorem pointer_saturation (s s' : SimState) (cmd : Command)
    (hpos : s.position < s.memory.length)
    (hrun : process_command_with_lamina s cmd = .ok s') :
    (cmd = Command.Left → s.position = 0 → s'.position = 0) ∧
      (cmd = Command.Right → s.position = s.memory.length - 1 →
        s'.position = s.memory.length - 1) ∧
      s'.position < s'.memory.length := by
  cases cmd with
  | Right =>
    simp only [process_command_with_lamina, Except.ok.injEq] at hrun
    subst hrun
    refine ⟨?_, ?_, ?_⟩
    · intro h
      exact absurd h (by decide)
    · intro _ h
      show min (s.position + 1) (s.memory.length - 1) = s.memory.length - 1
      omega
    · show min (s.position + 1) (s.memory.length - 1) < s.memory.length
      omega
  | Left =>
    simp only [process_command_with_lamina, Except.ok.injEq] at hrun
    subst hrun
    refine ⟨?_, ?_, ?_⟩
    · intro _ h
      show s.position - 1 = 0
      omega
    · intro h
      exact absurd h (by decide)
    · show s.position - 1 < s.memory.length
      omega
  | Increment =>
    simp only [process_command_with_lamina, Except.ok.injEq] at hrun
    subst hrun
    refine ⟨?_, ?_, ?_⟩
    · intro h
      exact absurd h (by decide)
    · intro h
      exact absurd h (by decide)
    · show s.position <
        (if s.position < s.memory.length
          then s.memory.set s.position ((current_value s + 1) % 256) else s.memory).length
      rw [if_pos hpos, List.length_set]
      exact hpos
  | Decrement =>
    simp only [process_command_with_lamina, Except.ok.injEq] at hrun
    subst hrun
    refine ⟨?_, ?_, ?_⟩
    · intro h
      exact absurd h (by decide)
    · intro h
      exact absurd h (by decide)
    · show s.position <
        (if s.position < s.memory.length
          then s.memory.set s.position ((current_value s + 255) % 256) else s.memory).length
      rw [if_pos hpos, List.length_set]
      exact hpos
  | Output =>
    simp only [process_command_with_lamina, Except.ok.injEq] at hrun
    subst hrun
    refine ⟨?_, ?_, ?_⟩
    · intro h
      exact absurd h (by decide)
    · intro h
      exact absurd h (by decide)
    · exact hpos
  | Input =>
    simp only [process_command_with_lamina, Except.ok.injEq] at hrun
    subst hrun
    refine ⟨?_, ?_, ?_⟩
    · intro h
      exact absurd h (by decide)
    · intro h
      exact absurd h (by decide)
    · exact hpos

/-- Witness for C5: moving left from position 0 on a two-cell tape stays at
position 0. -/
theorem pointer_saturation_witness :
    (⟨[0, 0], 0, [], 0⟩ : SimState).position < (⟨[0, 0], 0, [], 0⟩ : SimState).memory.length ∧
      ((Command.Left = Command.Left → (⟨[0, 0], 0, [], 0⟩ : SimState).position = 0 →
          (⟨[0, 0], 0, [], 0⟩ : SimState).position = 0) ∧
        (Command.Left = Command.Right →
          (⟨[0, 0], 0, [], 0⟩ : SimState).position =
            (⟨[0, 0], 0, [], 0⟩ : SimState).memory.length - 1 →
          (⟨[0, 0], 0, [], 0⟩ : SimState).position =
            (⟨[0, 0], 0, [], 0⟩ : SimState).memory.length - 1) ∧
        (⟨[0, 0], 0, [], 0⟩ : SimState).position <
          (⟨[0, 0], 0, [], 0⟩ : SimState).memory.length) :=
  ⟨by decide, pointer_saturation ⟨[0, 0], 0, [], 0⟩ ⟨[0, 0], 0, [], 0⟩ Command.Left
    (by decide) rfl⟩

end ClaimC4C5

section ClaimC3

/-- C3, behavior of the code: the `Input` command of the builder's
compile-time evaluation is a no-op on the simulation state. It reads no input
source (none exists), consumes nothing, and leaves every tape cell unchanged;
the builder only emits a placeholder instruction holding the constant 65. -/
theorem input_is_noop (s : SimState) : process_command_with_lamina s Command.Input = .ok s := rfl

end ClaimC3

section ClaimC10

/-- Every node and node list is processed successfully: the `Result` error
branches of the builder's processing functions are never taken. -/
theorem process_ok : ∀ (n : Nat),
    (∀ (node : AstNode), sizeOf node ≤ n → ∀ s, ∃ s', process_node s node = .ok s') ∧
    (∀ (l : List AstNode), sizeOf l ≤ n → ∀ s, ∃ s', process_seq s l = .ok s') := by
  intro n
  induction n with
  | zero =>
    constructor
    · intro node hsz s
      exfalso
      cases node <;> simp at hsz
    · intro l hsz s
      exfalso
      cases l <;> simp at hsz
  | succ n ih =>
    constructor
    · intro node hsz s
      cases node with
      | Command cmd => exact ⟨_, rfl⟩
      | Loop body =>
        have hb : sizeOf body ≤ n := by
          simp only [AstNode.Loop.sizeOf_spec] at hsz
          omega
        obtain ⟨s1, h1⟩ := ih.2 body hb s
        obtain ⟨s2, h2⟩ := ih.2 body hb s1
        obtain ⟨s3, h3⟩ := ih.2 body hb s2
        obtain ⟨s4, h4⟩ := ih.2 body hb s3
        obtain ⟨s5, h5⟩ := ih.2 body hb s4
        refine ⟨s5, ?_⟩
        simp only [process_node, h1, h2, h3, h4, h5]
    · intro l hsz s
      cases l with
      | nil => exact ⟨s, rfl⟩
      | cons node rest =>
        have h1 : sizeOf node ≤ n := by
          simp only [List.cons.sizeOf_spec] at hsz
          omega
        have h2 : sizeOf rest ≤ n := by
          simp only [List.cons.sizeOf_spec] at hsz
          omega
        obtain ⟨s1, hn1⟩ := ih.1 node h1 s
        obtain ⟨s2, hn2⟩ := ih.2 rest h2 s1
        refine ⟨s2, ?_⟩
        simp only [process_seq, hn1, hn2]

/-- C10: for every AST and every configuration, `build_ir` returns `Ok`; its
`String` error branch is unreachable, because every processing function only
ever returns `Ok` and every compile-time tape access is bounds-guarded. -/
theorem build_ir_total (config : BrainfuckConfig) (ast : List AstNode) :
    ∃ s, build_ir config ast = .ok s := by
  obtain ⟨s', h⟩ :=
    (process_ok (sizeOf ast)).2 ast (Nat.le_refl _)
      ⟨List.replicate config.tape_size 0, 0, [], 0⟩
  refine ⟨s', ?_⟩
  simp only [build_ir, process_ast_with_lamina, h]

end ClaimC10

section ClaimC1C2

/-- C1, behavior of the code: the builder executes a loop body exactly five
times with no guard. On a three-cell tape, the program `[+]` — whose guard
cell is 0 on entry, so the claimed semantics would execute the body zero
times and leave the tape all zero — leaves the tape at `[5, 0, 0]`. -/
theorem loop_ignores_zero_guard :
    build_ir (BrainfuckConfig.new 3 1) [AstNode.Loop [AstNode.Command Command.Increment]] =
      .ok ⟨[5, 0, 0], 0, [], 0⟩ := by
  rfl

/-- Canonical contrast for C1, modelled from the spec: a loop whose guard
cell is zero on entry executes its body zero times and the state is passed
through unchanged. -/
theorem canonical_loop_zero_guard (fuel : Nat) (st : EvalState) (body rest : List AstNode)
    (h : st.tape.getD st.pointer 0 = 0) :
    canonicalRun (fuel + 1) st (AstNode.Loop body :: rest) = canonicalRun fuel st rest := by
  simp only [canonicalRun, if_pos h]

/-- Witness for the canonical contrast: on an all-zero tape, `[+]` under the
canonical semantics skips the loop body entirely. -/
theorem canonical_loop_zero_guard_witness :
    (⟨[0, 0, 0], 0, [], []⟩ : EvalState).tape.getD
        (⟨[0, 0, 0], 0, [], []⟩ : EvalState).pointer 0 = 0 ∧
      canonicalRun 2 ⟨[0, 0, 0], 0, [], []⟩
          [AstNode.Loop [AstNode.Command Command.Increment]] =
        canonicalRun 1 ⟨[0, 0, 0], 0, [], []⟩ [] :=
  ⟨rfl, canonical_loop_zero_guard 1 ⟨[0, 0, 0], 0, [], []⟩
    [AstNode.Command Command.Increment] [] rfl⟩

/-- C2, behavior of the code: the test program `"++++++++[>++++++++<-]>."`
parses to `program64`, and the builder's compile-time evaluation (on an
eight-cell tape; the program touches only cells 0 and 1, so the tape size
does not affect the output) hands exactly one byte to `write_byte`, with
value 40 — not 64 — because the loop body runs exactly five times instead of
eight guarded iterations. -/
theorem sample_program_outputs_forty :
    parse_brainfuck "++++++++[>++++++++<-]>." = .ok program64 ∧
      (build_ir (BrainfuckConfig.new 8 1) program64).map SimState.output = .ok [40] := by
  constructor
  · rfl
  · simp [build_ir, process_ast_with_lamina, program64, process_seq, process_node,
      process_command_with_lamina, current_value, List.replicate, Except.map]

/-- Canonical contrast for C2, modelled from the spec: the same program under
the canonical while-nonzero semantics with an empty input stream outputs
exactly one byte with value 64. -/
theorem sample_program_canonical_output :
    (canonicalRun 100 ⟨List.replicate 8 0, 0, [], []⟩ program64).map EvalState.output =
      some [64] := by
  simp [canonicalRun, canonicalCmd, program64, List.replicate]

end ClaimC1C2

end BrainfuckLamina
